import Mathlib

/-!
# Verification of the study-doc flashcard engine

A shallow embedding of the spaced-repetition scheduler, card selector,
session summary, and blind-ladder progression logic of the study-doc
repository (`src/lib/spaced-repetition.ts` reconstructed from the source,
`src/lib/flashcard-types.ts`, `src/app/flashcards/play/page.tsx`), with
theorems checking the natural-language specification against the code.

JavaScript numbers are modelled as exact rationals (ℚ); `Math.round` is
modelled as `mathRound` (round half toward +∞, which is JS semantics).
Randomness (`Math.random()`) is modelled by an explicit stream of rational
draws in `[0, 1)`; the comparator passed to `Array.prototype.sort` by the
shuffle branch is modelled as an arbitrary boolean comparator parameter.
-/

/-- JS `Math.round`: round half toward positive infinity, `⌊x + 1/2⌋`. -/
def mathRound (q : ℚ) : ℤ := ⌊q + 1/2⌋

/-- `CardStats` record from `flashcard-types.ts`. Ratings are 1..4. -/
structure CardStats where
  id : String
  ease : ℚ
  interval : ℚ
  due : ℚ
  reviews : ℕ
  lapses : ℕ
  lastRating : Option ℕ := none
deriving Repr, DecidableEq

/-- `DEFAULT_EASE = 2.5` from `spaced-repetition.ts`. -/
def DEFAULT_EASE : ℚ := 5/2

/-- `MIN_EASE = 1.3` from `spaced-repetition.ts`. -/
def MIN_EASE : ℚ := 13/10

/-- `DAY_MS = 86_400_000` from `spaced-repetition.ts`. -/
def DAY_MS : ℚ := 86400000

/-- The default stats object used by `getCardStats` / `weightedSelect`
for a card with no stored stats. -/
def defaultStats (cardId : String) (now : ℚ) : CardStats :=
  { id := cardId, ease := DEFAULT_EASE, interval := 1, due := now
  , reviews := 0, lapses := 0 }

/-- `applyRating` from `spaced-repetition.ts`: the simplified SM-2 update.
`now` stands for `Date.now()`.  The JS `switch` has no `default`, so a
rating outside 1..4 leaves everything but the frame fields unchanged. -/
def applyRating (stats : CardStats) (rating : ℕ) (now : ℚ) : CardStats :=
  let next : CardStats :=
    { stats with reviews := stats.reviews + 1, lastRating := some rating }
  match rating with
  | 1 =>
      { next with
        lapses := next.lapses + 1
      , ease := max MIN_EASE (stats.ease - 2/10)
      , interval := 1
      , due := now + DAY_MS }
  | 2 =>
      let newInterval : ℚ := max 1 (mathRound (stats.interval * (6/5)) : ℚ)
      { next with
        ease := max MIN_EASE (stats.ease - 3/20)
      , interval := newInterval
      , due := now + newInterval * DAY_MS }
  | 3 =>
      let newInterval : ℚ :=
        if stats.reviews ≤ 1 then 1
        else if stats.reviews = 2 then 6
        else (mathRound (stats.interval * stats.ease) : ℚ)
      { next with
        interval := newInterval
      , due := now + newInterval * DAY_MS }
  | 4 =>
      let newInterval : ℚ :=
        if stats.reviews ≤ 1 then 4
        else (mathRound (stats.interval * stats.ease * (13/10)) : ℚ)
      { next with
        ease := min 3 (stats.ease + 3/20)
      , interval := newInterval
      , due := now + newInterval * DAY_MS }
  | _ => next

/-- A per-card result entry `{ cardId, rating }` (`DeckResult` in the UI). -/
structure DeckResult where
  cardId : String
  rating : ℕ
deriving Repr, DecidableEq

/-- The record returned by `sessionSummary`. -/
structure SessionSummary where
  again : ℕ
  hard : ℕ
  good : ℕ
  easy : ℕ
  total : ℕ
  correct : ℕ
  pct : ℤ
deriving Repr, DecidableEq

/-- `sessionSummary` from `spaced-repetition.ts`. -/
def sessionSummary (results : List DeckResult) : SessionSummary :=
  let again := (results.filter (fun r => r.rating == 1)).length
  let hard := (results.filter (fun r => r.rating == 2)).length
  let good := (results.filter (fun r => r.rating == 3)).length
  let easy := (results.filter (fun r => r.rating == 4)).length
  let total := results.length
  let correct := good + easy
  let pct : ℤ :=
    if 0 < total then mathRound ((correct : ℚ) / total * 100) else 0
  { again := again, hard := hard, good := good, easy := easy
  , total := total, correct := correct, pct := pct }

/-- `Flashcard` from `flashcard-types.ts`. -/
structure Flashcard where
  id : String
  question : String
  answer : String
  deckId : String
deriving Repr, DecidableEq

/-- The `allStats[c.id] ?? {...default...}` lookup used by `weightedSelect`
and `sortForUnitMode`; the stored stats map is a parameter. -/
def statsOrDefault (allStats : String → Option CardStats) (cardId : String)
    (now : ℚ) : CardStats :=
  (allStats cardId).getD (defaultStats cardId now)

/-- `cardWeight` from `spaced-repetition.ts`. -/
def cardWeight (stats : CardStats) (now : ℚ) : ℚ :=
  let overdueFactor : ℚ := if stats.due ≤ now then 3/2 else 1
  let lapseFactor : ℚ := 1 + stats.lapses * (2/5)
  let easeFactor : ℚ := 1 / stats.ease
  easeFactor * lapseFactor * overdueFactor

/-- An entry of the selection pool: original index, card, weight. -/
abbrev SelEntry : Type := ℕ × Flashcard × ℚ

/-- The inner `for` loop of one `weightedSelect` iteration: walk the entries
in index order, skipping indices in `used`, subtracting each weight from
`rand`; return the first entry at which the running value drops to ≤ 0, or
`none` when the walk finishes without a pick. -/
def scanPick (used : List ℕ) (rand : ℚ) : List SelEntry → Option SelEntry
  | [] => none
  | e :: es =>
    if e.1 ∈ used then scanPick used rand es
    else if rand - e.2.2 ≤ 0 then some e
    else scanPick used (rand - e.2.2) es

/-- The `while` loop of `weightedSelect`, consuming one `Math.random()` draw
(scaled by the fixed `totalWeight`) per iteration.  The returned Bool is
`true` when the loop exited through its guard; `false` means the modelled
stream of draws ran out first (in the real program the loop would simply
keep drawing). -/
def selectLoop (entries : List SelEntry) (poolLen count : ℕ)
    (totalWeight : ℚ) :
    List ℚ → List ℕ → List Flashcard → List Flashcard × Bool
  | rands, used, selected =>
    if count ≤ selected.length ∨ poolLen ≤ used.length then (selected, true)
    else
      match rands with
      | [] => (selected, false)
      | r :: rs =>
        match scanPick used (r * totalWeight) entries with
        | some e => selectLoop entries poolLen count totalWeight rs
            (e.1 :: used) (selected ++ [e.2.1])
        | none => selectLoop entries poolLen count totalWeight rs used selected

/-- `weightedSelect` from `spaced-repetition.ts`.  `allStats` stands for the
stored stats map read by `loadAllStats()`, `shuffleLe` for the random
comparator `() => Math.random() - 0.5` handed to `sort` (modelled as an
arbitrary comparator), and `rands` for the stream of `Math.random()` draws
of the selection loop. -/
def weightedSelect (allStats : String → Option CardStats) (now : ℚ)
    (shuffleLe : Flashcard → Flashcard → Bool)
    (pool : List Flashcard) (count : ℕ) (rands : List ℚ) :
    List Flashcard × Bool :=
  if pool.length = 0 then ([], true)
  else if pool.length ≤ count then (pool.mergeSort shuffleLe, true)
  else
    let weights := pool.map fun c =>
      cardWeight (statsOrDefault allStats c.id now) now
    let totalWeight := weights.sum
    let entries := (pool.zip weights).enum
    selectLoop entries pool.length count totalWeight rands [] []

/-- From the spec's words for weighted sampling (§4.2): "walk the remaining
pool accumulating weights until the draw is exceeded, remove that card from
the pool": return the chosen entry and the remaining pool without it. -/
def walkRemove (rand : ℚ) : List SelEntry → Option (SelEntry × List SelEntry)
  | [] => none
  | e :: es =>
    if rand - e.2.2 ≤ 0 then some (e, es)
    else
      match walkRemove (rand - e.2.2) es with
      | some (c, rest) => some (c, e :: rest)
      | none => none

/-- The draw loop exactly as the spec's words describe it (C3): each draw is
uniform in `[0, totalRemainingWeight)`, i.e. the `Math.random()` value is
scaled by the CURRENT remaining total, which shrinks as chosen cards'
weights are removed; repeat until `count` cards are chosen or the pool is
exhausted. -/
def specSelectLoop : List ℚ → List SelEntry → ℕ → List Flashcard
  | rands, remaining, needed =>
    if needed = 0 ∨ remaining = [] then []
    else
      match rands with
      | [] => []
      | r :: rs =>
        let total := (remaining.map (fun e => e.2.2)).sum
        match walkRemove (r * total) remaining with
        | some (e, rest) => e.2.1 :: specSelectLoop rs rest (needed - 1)
        | none => specSelectLoop rs remaining needed

/-- The draw procedure the spec describes for `weightedSelect` (C3): same
wrapper as the code, but with draws scaled by the remaining total. -/
def specWeightedSelect (allStats : String → Option CardStats) (now : ℚ)
    (shuffleLe : Flashcard → Flashcard → Bool)
    (pool : List Flashcard) (count : ℕ) (rands : List ℚ) : List Flashcard :=
  if pool.length = 0 then []
  else if pool.length ≤ count then pool.mergeSort shuffleLe
  else
    let weights := pool.map fun c =>
      cardWeight (statsOrDefault allStats c.id now) now
    let entries := (pool.zip weights).enum
    specSelectLoop rands entries count

/-- The amended draw loop (C3 as the code actually behaves): each draw is
uniform in `[0, totalWeight)` for the FIXED initial total; a draw that lands
beyond the remaining cards' cumulative weight selects nothing and is simply
retried with the next draw. -/
def amendedSelectLoop (totalWeight : ℚ) :
    List ℚ → List SelEntry → ℕ → List Flashcard
  | rands, remaining, needed =>
    if needed = 0 ∨ remaining = [] then []
    else
      match rands with
      | [] => []
      | r :: rs =>
        match walkRemove (r * totalWeight) remaining with
        | some (e, rest) => e.2.1 :: amendedSelectLoop totalWeight rs rest (needed - 1)
        | none => amendedSelectLoop totalWeight rs remaining needed

/-- The amended description of `weightedSelect`'s draw procedure: removal
from the pool but a fixed draw total. -/
def amendedWeightedSelect (allStats : String → Option CardStats) (now : ℚ)
    (shuffleLe : Flashcard → Flashcard → Bool)
    (pool : List Flashcard) (count : ℕ) (rands : List ℚ) : List Flashcard :=
  if pool.length = 0 then []
  else if pool.length ≤ count then pool.mergeSort shuffleLe
  else
    let weights := pool.map fun c =>
      cardWeight (statsOrDefault allStats c.id now) now
    let totalWeight := weights.sum
    let entries := (pool.zip weights).enum
    amendedSelectLoop totalWeight rands entries count

/-- The "effective due" used by `sortForUnitMode`:
`sa.due <= now ? 0 : sa.due`. -/
def effDue (s : CardStats) (now : ℚ) : ℚ :=
  if s.due ≤ now then 0 else s.due

/-- The comparator of `sortForUnitMode` (a JS number; negative sorts `a`
before `b`): cards without stored stats sort after cards with stats, stats
pairs compare by effective due then ease. -/
def unitCmp (allStats : String → Option CardStats) (now : ℚ)
    (a b : Flashcard) : ℚ :=
  match allStats a.id, allStats b.id with
  | none, none => 0
  | none, some _ => 1
  | some _, none => -1
  | some sa, some sb =>
    if effDue sa now ≠ effDue sb now then effDue sa now - effDue sb now
    else sa.ease - sb.ease

/-- `sortForUnitMode` from `spaced-repetition.ts`: `Array.prototype.sort`
(a stable merge sort) with the comparator above. -/
def sortForUnitMode (allStats : String → Option CardStats) (now : ℚ)
    (cards : List Flashcard) : List Flashcard :=
  cards.mergeSort (fun a b => decide (unitCmp allStats now a b ≤ 0))

/-- Three concrete cards used in counterexamples. -/
def cardA : Flashcard := { id := "a", question := "qa", answer := "aa", deckId := "d" }

/-- Second concrete card. -/
def cardB : Flashcard := { id := "b", question := "qb", answer := "ab", deckId := "d" }

/-- Third concrete card. -/
def cardC : Flashcard := { id := "c", question := "qc", answer := "ac", deckId := "d" }

/-- `BlindConfig` from `flashcard-types.ts`. -/
structure BlindConfig where
  name : String
  label : String
  cardCount : ℕ
  threshold : ℚ
  pointMultiplier : ℚ
deriving Repr, DecidableEq

/-- The fixed `BLINDS` ladder from `flashcard-types.ts`. -/
def BLINDS : List BlindConfig :=
  [ { name := "small", label := "Small Blind", cardCount := 10
    , threshold := 7/10, pointMultiplier := 1 }
  , { name := "big", label := "Big Blind", cardCount := 20
    , threshold := 3/4, pointMultiplier := 3/2 }
  , { name := "boss", label := "Boss Blind", cardCount := 30
    , threshold := 4/5, pointMultiplier := 2 } ]

/-- Out-of-range placeholder for `BLINDS[i]` lookups (the code only indexes
in range; this stands for JS `undefined`). -/
def junkBlind : BlindConfig :=
  { name := "", label := "", cardCount := 0, threshold := 0
  , pointMultiplier := 0 }

/-- The pass test computed by `handleBlindComplete` in `play/page.tsx`:
`summary.pct / 100 >= blind.threshold`. -/
def blindPassed (results : List DeckResult) (blind : BlindConfig) : Prop :=
  ((sessionSummary results).pct : ℚ) / 100 ≥ blind.threshold

instance (results : List DeckResult) (blind : BlindConfig) :
    Decidable (blindPassed results blind) := by
  unfold blindPassed
  infer_instance

/-- The `Phase` union type of `play/page.tsx`. -/
inductive Phase where
  | loading
  | error
  | playing
  | blindIntro
  | results
  | roundOver
deriving Repr, DecidableEq

/-- The React state of `PlayPageInner` relevant to random/blind mode. -/
structure PlayState where
  phase : Phase
  blindIndex : ℕ
  score : ℤ
  blindCards : List Flashcard
  allCards : List Flashcard
  sessionResults : List DeckResult
  roundPassed : Bool
deriving Repr

/-- `handleBlindComplete` from `play/page.tsx`, as a pure state transition.
`rands`/`shuffleLe`/`allStats`/`now` parameterize the `weightedSelect` call
made when advancing to the next blind. -/
def handleBlindComplete (allStats : String → Option CardStats) (now : ℚ)
    (shuffleLe : Flashcard → Flashcard → Bool) (rands : List ℚ)
    (st : PlayState) (results : List DeckResult) : PlayState :=
  let blind := BLINDS.getD st.blindIndex junkBlind
  let summary := sessionSummary results
  let passed := blindPassed results blind
  let earned : ℤ :=
    mathRound ((summary.correct : ℚ) * 100 * blind.pointMultiplier)
  let st1 : PlayState :=
    { st with
      score := st.score + earned
    , sessionResults := st.sessionResults ++ results
    , roundPassed := decide passed }
  if ¬passed ∨ st.blindIndex ≥ BLINDS.length - 1 then
    { st1 with phase := Phase.roundOver }
  else
    let nextBlindIndex := st.blindIndex + 1
    let nextBlind := BLINDS.getD nextBlindIndex junkBlind
    { st1 with
      phase := Phase.blindIntro
    , blindIndex := nextBlindIndex
    , blindCards := (weightedSelect allStats now shuffleLe st.allCards
        nextBlind.cardCount rands).1 }

/-- C10: applyRating preserves the card id, increments `reviews` by exactly
one, and records the applied rating in `lastRating`, for every stats record
and every rating. -/
theorem applyRating_frame (s : CardStats) (rating : ℕ) (now : ℚ) :
    (applyRating s rating now).id = s.id ∧
    (applyRating s rating now).reviews = s.reviews + 1 ∧
    (applyRating s rating now).lastRating = some rating := by
  rcases rating with _ | _ | _ | _ | _ | r <;>
    simp [applyRating]

/-- C1 counterexample: starting from a never-reviewed card, the SECOND
consecutive "good" (rating 3) yields interval 1, not 6 — the branch reads
the pre-increment review count and `reviews ≤ 1` catches both the first and
the second review. -/
theorem secondGood_interval_ne_six :
    (applyRating (applyRating (defaultStats "c" 0) 3 0) 3 0).interval = 1 ∧
    (applyRating (applyRating (defaultStats "c" 0) 3 0) 3 0).interval ≠ 6 := by
  constructor <;> simp [applyRating, defaultStats]

/-- C1 (amended): from a never-reviewed card (`reviews = 0`), consecutive
"good" ratings yield intervals 1, 1, 6, and then `round(6 × ease)`, with the
ease unchanged throughout. -/
theorem good_progression (s : CardStats) (t1 t2 t3 t4 : ℚ)
    (h : s.reviews = 0) :
    (applyRating s 3 t1).interval = 1 ∧
    (applyRating (applyRating s 3 t1) 3 t2).interval = 1 ∧
    (applyRating (applyRating (applyRating s 3 t1) 3 t2) 3 t3).interval = 6 ∧
    (applyRating (applyRating (applyRating (applyRating s 3 t1) 3 t2) 3 t3)
        3 t4).interval = (mathRound (6 * s.ease) : ℚ) ∧
    (applyRating (applyRating (applyRating (applyRating s 3 t1) 3 t2) 3 t3)
        3 t4).ease = s.ease := by
  simp [applyRating, h, mul_comm]

/-- C1 witness: the amended progression evaluated on the default fresh
card (`ease = 2.5`), where the fourth interval is `round(15) = 15`. -/
theorem good_progression_witness :
    (defaultStats "c" 0).reviews = 0 ∧
    (applyRating (defaultStats "c" 0) 3 0).interval = 1 ∧
    (applyRating (applyRating (defaultStats "c" 0) 3 0) 3 0).interval = 1 ∧
    (applyRating (applyRating (applyRating (defaultStats "c" 0) 3 0) 3 0)
        3 0).interval = 6 := by
  refine ⟨rfl, ?_, ?_, ?_⟩
  · exact (good_progression (defaultStats "c" 0) 0 0 0 0 rfl).1
  · exact (good_progression (defaultStats "c" 0) 0 0 0 0 rfl).2.1
  · exact (good_progression (defaultStats "c" 0) 0 0 0 0 rfl).2.2.1

/-- C5: on any input satisfying the CardStats invariant
(`1.3 ≤ ease ≤ 3.0`, `interval ≥ 1`) and any rating in 1..4, the record
returned by applyRating again satisfies `1.3 ≤ ease ≤ 3.0` and
`interval ≥ 1`. -/
theorem applyRating_invariants (s : CardStats) (rating : ℕ) (now : ℚ)
    (h1 : 13/10 ≤ s.ease) (h2 : s.ease ≤ 3) (h3 : 1 ≤ s.interval)
    (hlo : 1 ≤ rating) (hhi : rating ≤ 4) :
    13/10 ≤ (applyRating s rating now).ease ∧
    (applyRating s rating now).ease ≤ 3 ∧
    1 ≤ (applyRating s rating now).interval := by
  have hie : (13/10 : ℚ) ≤ s.interval * s.ease := by
    calc (13/10 : ℚ) = 1 * (13/10) := by ring
    _ ≤ s.interval * s.ease := by
        apply mul_le_mul h3 h1 (by norm_num) (by linarith)
  interval_cases rating
  · refine ⟨le_max_left _ _, max_le (by norm_num [MIN_EASE]) (by linarith), ?_⟩
    simp [applyRating]
  · refine ⟨?_, ?_, ?_⟩
    · simp [applyRating, MIN_EASE]
    · simpa [applyRating, MIN_EASE] using
        max_le (by norm_num : (13/10:ℚ) ≤ 3) (by linarith : s.ease - 3/20 ≤ 3)
    · simp [applyRating]
  · refine ⟨?_, ?_, ?_⟩
    · simp [applyRating]
      exact h1
    · simp [applyRating]
      exact h2
    · simp only [applyRating]
      split
      · norm_num
      · split
        · norm_num
        · have : (1:ℤ) ≤ mathRound (s.interval * s.ease) := by
            rw [mathRound, Int.le_floor]
            push_cast
            linarith
          exact_mod_cast this
  · refine ⟨?_, ?_, ?_⟩
    · simpa [applyRating] using le_min (by norm_num : (13/10:ℚ) ≤ 3)
        (by linarith : (13/10:ℚ) ≤ s.ease + 3/20)
    · simp [applyRating]
    · simp only [applyRating]
      split
      · norm_num
      · have : (1:ℤ) ≤ mathRound (s.interval * s.ease * (13/10)) := by
          rw [mathRound, Int.le_floor]
          push_cast
          nlinarith
        exact_mod_cast this

/-- C5 witness: the invariant theorem applied to the default fresh card
with rating 1. -/
theorem applyRating_invariants_witness :
    13/10 ≤ (applyRating (defaultStats "c" 0) 1 0).ease ∧
    (applyRating (defaultStats "c" 0) 1 0).ease ≤ 3 ∧
    1 ≤ (applyRating (defaultStats "c" 0) 1 0).interval :=
  applyRating_invariants (defaultStats "c" 0) 1 0
    (by norm_num [defaultStats, DEFAULT_EASE])
    (by norm_num [defaultStats, DEFAULT_EASE])
    (by norm_num [defaultStats]) (by norm_num) (by norm_num)

/-- C6: on any input with ease in the invariant range `[1.3, 3.0]`,
rating 4 ("easy") never decreases the ease, and ratings 1 ("again") and
2 ("hard") never increase it. -/
theorem applyRating_ease_monotone (s : CardStats) (now : ℚ)
    (h1 : 13/10 ≤ s.ease) (h2 : s.ease ≤ 3) :
    s.ease ≤ (applyRating s 4 now).ease ∧
    (applyRating s 1 now).ease ≤ s.ease ∧
    (applyRating s 2 now).ease ≤ s.ease := by
  refine ⟨?_, ?_, ?_⟩
  · simpa [applyRating] using le_min h2 (by linarith : s.ease ≤ s.ease + 3/20)
  · simpa [applyRating, MIN_EASE] using
      max_le h1 (by linarith : s.ease - 2/10 ≤ s.ease)
  · simpa [applyRating, MIN_EASE] using
      max_le h1 (by linarith : s.ease - 3/20 ≤ s.ease)

/-- C6 witness: ease monotonicity evaluated on the default fresh card. -/
theorem applyRating_ease_monotone_witness :
    (defaultStats "c" 0).ease ≤ (applyRating (defaultStats "c" 0) 4 0).ease ∧
    (applyRating (defaultStats "c" 0) 1 0).ease ≤ (defaultStats "c" 0).ease ∧
    (applyRating (defaultStats "c" 0) 2 0).ease ≤ (defaultStats "c" 0).ease :=
  applyRating_ease_monotone (defaultStats "c" 0) 0
    (by norm_num [defaultStats, DEFAULT_EASE])
    (by norm_num [defaultStats, DEFAULT_EASE])

/-- Counting ratings 3 and 4 separately adds up to counting "3 or 4". -/
lemma count_good_add_easy (results : List DeckResult) :
    (results.filter (fun r => r.rating == 3)).length +
      (results.filter (fun r => r.rating == 4)).length =
    (results.filter (fun r => r.rating == 3 || r.rating == 4)).length := by
  induction results with
  | nil => simp
  | cons hd tl ih =>
    by_cases h3 : hd.rating = 3
    · simp only [List.filter_cons, h3]
      simp
      omega
    · by_cases h4 : hd.rating = 4
      · simp only [List.filter_cons, h4]
        simp
        omega
      · simp only [List.filter_cons]
        simp [h3, h4]
        omega

/-- C9: sessionSummary counts as correct exactly the results rated 3 or 4,
reports the list length as total, and computes `pct` as 0 on an empty list
and `round(100 × correct / total)` otherwise. -/
theorem sessionSummary_spec (results : List DeckResult) :
    (sessionSummary results).correct =
      (results.filter (fun r => r.rating == 3 || r.rating == 4)).length ∧
    (sessionSummary results).total = results.length ∧
    (sessionSummary results).pct =
      (if results.length = 0 then 0
       else mathRound (100 * ((results.filter
              (fun r => r.rating == 3 || r.rating == 4)).length : ℚ)
            / (results.length : ℚ))) := by
  refine ⟨count_good_add_easy results, rfl, ?_⟩
  simp only [sessionSummary]
  by_cases h : results.length = 0
  · simp [h]
  · have hpos : 0 < results.length := Nat.pos_of_ne_zero h
    simp only [hpos, if_true, h, if_false]
    rw [← count_good_add_easy]
    congr 1
    push_cast
    ring


/-- Helper: a successful `scanPick` returns an entry of the list whose index
is not yet used. -/
lemma scanPick_mem (used : List ℕ) (rand : ℚ) (es : List SelEntry)
    (e : SelEntry) (h : scanPick used rand es = some e) :
    e ∈ es ∧ e.1 ∉ used := by
  induction es generalizing rand with
  | nil => simp [scanPick] at h
  | cons a tl ih =>
    rw [scanPick] at h
    split at h
    · rcases ih _ h with ⟨h1, h2⟩
      exact ⟨List.mem_cons_of_mem _ h1, h2⟩
    · split at h
      · cases h
        next hmem _ => exact ⟨List.mem_cons_self _ _, hmem⟩
      · rcases ih _ h with ⟨h1, h2⟩
        exact ⟨List.mem_cons_of_mem _ h1, h2⟩

/-- Helper: a successful `walkRemove` splits the list around the picked
entry. -/
lemma walkRemove_decomp (rand : ℚ) (l : List SelEntry) (e : SelEntry)
    (rest : List SelEntry) (h : walkRemove rand l = some (e, rest)) :
    ∃ pre suf, l = pre ++ e :: suf ∧ rest = pre ++ suf := by
  induction l generalizing rand rest with
  | nil => simp [walkRemove] at h
  | cons a tl ih =>
    rw [walkRemove] at h
    split at h
    · cases h
      exact ⟨[], tl, rfl, rfl⟩
    · revert h
      cases hrec : walkRemove (rand - a.2.2) tl with
      | none => intro h; cases h
      | some p =>
        intro h
        cases h
        rcases ih _ _ hrec with ⟨pre, suf, h1, h2⟩
        exact ⟨a :: pre, suf, by rw [h1]; rfl, by rw [h2]; rfl⟩


/-- Helper: walking the full entry list while skipping used indices is the
same as walking the used-filtered list; on success the remaining pool is the
filter extended by the picked index. -/
lemma scanPick_walkRemove (rand : ℚ) (used : List ℕ) (es : List SelEntry)
    (hnd : (es.map (fun e => e.1)).Nodup) :
    walkRemove rand (es.filter (fun e => decide (e.1 ∉ used))) =
      (scanPick used rand es).map
        (fun e => (e, es.filter (fun x => decide (x.1 ∉ e.1 :: used)))) := by
  induction es generalizing rand with
  | nil => simp [walkRemove, scanPick]
  | cons a tl ih =>
    have hnd' : (tl.map (fun e => e.1)).Nodup := (List.nodup_cons.mp hnd).2
    have hafst : a.1 ∉ tl.map (fun e => e.1) := (List.nodup_cons.mp hnd).1
    by_cases hu : a.1 ∈ used
    · rw [scanPick, if_pos hu, List.filter_cons]
      have hdec : decide (a.1 ∉ used) = false := by simp [hu]
      rw [hdec]
      simp only [Bool.false_eq_true, if_false]
      rw [ih rand hnd']
      cases hsp : scanPick used rand tl with
      | none => simp
      | some e' =>
        simp only [Option.map_some']
        have hmem : a.1 ∈ e'.1 :: used := List.mem_cons_of_mem _ hu
        rw [List.filter_cons]
        simp [hmem]
    · rw [scanPick, if_neg hu, List.filter_cons]
      have hdec : decide (a.1 ∉ used) = true := by simp [hu]
      rw [hdec]
      simp only [if_true]
      by_cases hle : rand - a.2.2 ≤ 0
      · rw [walkRemove.eq_def]
        simp only []
        rw [if_pos hle, if_pos hle]
        simp only [Option.map_some']
        have h1 : a.1 ∈ a.1 :: used := List.mem_cons_self _ _
        rw [List.filter_cons]
        have hdec1 : decide (a.1 ∉ a.1 :: used) = false := by simp
        rw [hdec1]
        simp only [Bool.false_eq_true, if_false]
        congr 2
        apply List.filter_congr
        intro x hx
        have hxne : x.1 ≠ a.1 := by
          intro hcontra
          exact hafst (hcontra ▸ List.mem_map_of_mem (fun e => e.1) hx)
        simp [hxne, List.mem_cons]
      · rw [walkRemove.eq_def]
        simp only []
        rw [if_neg hle, if_neg hle, ih (rand - a.2.2) hnd']
        cases hsp : scanPick used (rand - a.2.2) tl with
        | none => simp
        | some e' =>
          simp only [Option.map_some']
          have he' : e' ∈ tl := (scanPick_mem _ _ _ _ hsp).1
          have hne : a.1 ≠ e'.1 := by
            intro hcontra
            exact hafst (hcontra ▸ List.mem_map_of_mem (fun e => e.1) he')
          have hmem : a.1 ∉ e'.1 :: used := by
            simp [List.mem_cons, hne, hu]
          rw [List.filter_cons]
          have hdec2 : decide (a.1 ∉ e'.1 :: used) = true := by simp [hmem]
          rw [hdec2]
          simp only [if_true]

/-- Helper: with entries indexed exactly by `range n` and a duplicate-free
used list of indices below `n`, the unused remainder is empty iff `n` many
indices are used. -/
lemma filter_used_eq_nil_iff (entries : List SelEntry) (n : ℕ) (used : List ℕ)
    (hmap : entries.map (fun e => e.1) = List.range n)
    (hund : used.Nodup) (hub : ∀ i ∈ used, i < n) :
    entries.filter (fun e => decide (e.1 ∉ used)) = [] ↔ n ≤ used.length := by
  constructor
  · intro h
    have hsub : List.range n ⊆ used := by
      intro i hi
      rw [← hmap] at hi
      rcases List.mem_map.mp hi with ⟨e, he, hei⟩
      have h2 := List.filter_eq_nil_iff.mp h e he
      simp only [decide_eq_true_eq, not_not] at h2
      rwa [hei] at h2
    calc n = (List.range n).length := (List.length_range n).symm
      _ ≤ used.length := ((List.nodup_range n).subperm hsub).length_le
  · intro h
    rw [List.filter_eq_nil_iff]
    intro e he
    have hsub2 : used ⊆ List.range n := fun i hi => List.mem_range.mpr (hub i hi)
    have hperm : used.Perm (List.range n) :=
      (hund.subperm hsub2).perm_of_length_le (by simpa using h)
    have hmem : e.1 ∈ List.range n := by
      rw [← hmap]
      exact List.mem_map_of_mem (fun e => e.1) he
    have : e.1 ∈ used := hperm.symm.subset hmem
    simp [this]

/-- Helper: the code's selection loop over a fixed entry list with a used
set computes the same card list as the amended loop over a shrinking
remaining pool with the fixed initial total. -/
lemma selectLoop_eq_amendedLoop (entries : List SelEntry) (n count : ℕ)
    (W : ℚ) (rands : List ℚ) (used : List ℕ) (selected : List Flashcard)
    (hmap : entries.map (fun e => e.1) = List.range n)
    (hund : used.Nodup) (hub : ∀ i ∈ used, i < n) :
    (selectLoop entries n count W rands used selected).1 =
      selected ++ amendedSelectLoop W rands
        (entries.filter (fun e => decide (e.1 ∉ used)))
        (count - selected.length) := by
  induction rands generalizing used selected with
  | nil =>
    rw [selectLoop, amendedSelectLoop]
    by_cases hg : count ≤ selected.length ∨ n ≤ used.length
    · rw [if_pos hg]
      have hg' : count - selected.length = 0 ∨
          entries.filter (fun e => decide (e.1 ∉ used)) = [] := by
        rcases hg with h | h
        · exact Or.inl (by omega)
        · exact Or.inr ((filter_used_eq_nil_iff entries n used hmap hund hub).mpr h)
      rw [if_pos hg']
      simp
    · rw [if_neg hg]
      have hg' : ¬ (count - selected.length = 0 ∨
          entries.filter (fun e => decide (e.1 ∉ used)) = []) := by
        push_neg at hg ⊢
        refine ⟨by omega, ?_⟩
        intro hnil
        exact absurd ((filter_used_eq_nil_iff entries n used hmap hund hub).mp hnil)
          (by omega)
      rw [if_neg hg']
      simp
  | cons r rs ih =>
    rw [selectLoop, amendedSelectLoop]
    by_cases hg : count ≤ selected.length ∨ n ≤ used.length
    · rw [if_pos hg]
      have hg' : count - selected.length = 0 ∨
          entries.filter (fun e => decide (e.1 ∉ used)) = [] := by
        rcases hg with h | h
        · exact Or.inl (by omega)
        · exact Or.inr ((filter_used_eq_nil_iff entries n used hmap hund hub).mpr h)
      rw [if_pos hg']
      simp
    · rw [if_neg hg]
      have hg' : ¬ (count - selected.length = 0 ∨
          entries.filter (fun e => decide (e.1 ∉ used)) = []) := by
        push_neg at hg ⊢
        refine ⟨by omega, ?_⟩
        intro hnil
        exact absurd ((filter_used_eq_nil_iff entries n used hmap hund hub).mp hnil)
          (by omega)
      rw [if_neg hg']
      have hnd : (entries.map (fun e => e.1)).Nodup := by
        rw [hmap]; exact List.nodup_range n
      rw [scanPick_walkRemove (r * W) used entries hnd]
      cases hsp : scanPick used (r * W) entries with
      | none => simpa using ih used selected hund hub
      | some e =>
        simp only [Option.map_some']
        rcases scanPick_mem used (r * W) entries e hsp with ⟨hee, heu⟩
        have hein : e.1 < n := by
          have : e.1 ∈ List.range n := by
            rw [← hmap]
            exact List.mem_map_of_mem (fun x => x.1) hee
          exact List.mem_range.mp this
        have ihx := ih (e.1 :: used) (selected ++ [e.2.1])
          (List.nodup_cons.mpr ⟨heu, hund⟩)
          (by intro i hi; rcases List.mem_cons.mp hi with h | h
              · omega
              · exact hub i h)
        rw [ihx]
        have hlen : count - (selected ++ [e.2.1]).length =
            count - selected.length - 1 := by
          simp
          omega
        rw [hlen]
        simp

/-- C3 (amended): `weightedSelect`'s draw procedure equals weighted
sampling without replacement in which every draw is scaled by the FIXED
initial `totalWeight` (chosen cards leave the pool but their weights are
never removed from the draw total; an overshooting draw picks nothing and
is retried). -/
theorem weightedSelect_eq_amended (allStats : String → Option CardStats)
    (now : ℚ) (shuffleLe : Flashcard → Flashcard → Bool)
    (pool : List Flashcard) (count : ℕ) (rands : List ℚ) :
    (weightedSelect allStats now shuffleLe pool count rands).1 =
      amendedWeightedSelect allStats now shuffleLe pool count rands := by
  unfold weightedSelect amendedWeightedSelect
  by_cases h0 : pool.length = 0
  · simp [h0]
  · by_cases hc : pool.length ≤ count
    · simp [h0, hc]
    · simp only [h0, hc, if_false]
      have hmap : (((pool.zip (pool.map fun c =>
          cardWeight (statsOrDefault allStats c.id now) now)).enum).map
            (fun e => e.1)) = List.range pool.length := by
        rw [List.enum_map_fst]
        congr 1
        rw [List.length_zip, List.length_map, min_self]
      have heq := selectLoop_eq_amendedLoop
        ((pool.zip (pool.map fun c =>
          cardWeight (statsOrDefault allStats c.id now) now)).enum)
        pool.length count
        ((pool.map fun c => cardWeight (statsOrDefault allStats c.id now) now).sum)
        rands [] [] hmap List.nodup_nil (by simp)
      simp only [List.length_nil, Nat.sub_zero, List.nil_append] at heq
      rw [heq]
      have hfil : (fun (e : SelEntry) => decide (e.1 ∉ ([] : List ℕ))) =
          fun _ => true := by
        funext e
        simp
      rw [hfil, List.filter_true]

/-- Helper: every card selected by the amended loop comes from the
remaining pool. -/
lemma amendedSelectLoop_subset (W : ℚ) (rands : List ℚ) (rem : List SelEntry)
    (needed : ℕ) :
    ∀ c ∈ amendedSelectLoop W rands rem needed,
      c ∈ rem.map (fun e => e.2.1) := by
  induction rands generalizing rem needed with
  | nil =>
    rw [amendedSelectLoop]
    split
    · simp
    · simp
  | cons r rs ih =>
    rw [amendedSelectLoop]
    split
    · simp
    · cases hw : walkRemove (r * W) rem with
      | none =>
        simp only [hw]
        exact ih rem needed
      | some p =>
        obtain ⟨e, rest⟩ := p
        simp only [hw]
        intro c hc
        rcases walkRemove_decomp _ _ _ _ hw with ⟨pre, suf, hrem, hrest⟩
        rcases List.mem_cons.mp hc with hc | hc
        · subst hc
          apply List.mem_map_of_mem
          rw [hrem]
          exact List.mem_append_right pre (List.mem_cons_self _ _)
        · have := ih rest (needed - 1) c hc
          rw [hrest] at this
          rw [hrem]
          simp only [List.map_append, List.map_cons] at this ⊢
          rcases List.mem_append.mp this with h | h
          · exact List.mem_append_left _ h
          · exact List.mem_append_right _ (List.mem_cons_of_mem _ h)

/-- Helper: if the remaining pool's cards are distinct, the amended loop
selects distinct cards. -/
lemma amendedSelectLoop_nodup (W : ℚ) (rands : List ℚ) (rem : List SelEntry)
    (needed : ℕ) (h : (rem.map (fun e => e.2.1)).Nodup) :
    (amendedSelectLoop W rands rem needed).Nodup := by
  induction rands generalizing rem needed with
  | nil =>
    rw [amendedSelectLoop]
    split
    · simp
    · simp
  | cons r rs ih =>
    rw [amendedSelectLoop]
    split
    · simp
    · cases hw : walkRemove (r * W) rem with
      | none =>
        simp only [hw]
        exact ih rem needed h
      | some p =>
        obtain ⟨e, rest⟩ := p
        simp only [hw]
        rcases walkRemove_decomp _ _ _ _ hw with ⟨pre, suf, hrem, hrest⟩
        have hsub : rest.Sublist rem := by
          rw [hrem, hrest]
          exact (List.sublist_cons_self e suf).append_left pre
        have hrestnd : (rest.map (fun e => e.2.1)).Nodup :=
          (hsub.map _).nodup h
        refine List.nodup_cons.mpr ⟨?_, ih rest (needed - 1) hrestnd⟩
        intro hmem
        have hin := amendedSelectLoop_subset W rs rest (needed - 1) _ hmem
        rw [hrem] at h
        rw [hrest] at hin
        simp only [List.map_append, List.map_cons, List.nodup_append,
          List.mem_append] at h hin
        rcases h with ⟨h1, h2, h3⟩
        rcases List.nodup_cons.mp h2 with ⟨h4, h5⟩
        rcases hin with hin | hin
        · exact h3 hin (List.mem_cons_self _ _)
        · exact h4 hin

/-- Helper: when the code's selection loop exits through its guard, it has
selected exactly `count` cards (given `count ≤ poolLen`). -/
lemma selectLoop_complete_length (entries : List SelEntry) (n count : ℕ)
    (W : ℚ) (rands : List ℚ) (used : List ℕ) (selected : List Flashcard)
    (hinv : selected.length = used.length) (hsel : selected.length ≤ count)
    (hcount : count ≤ n)
    (h : (selectLoop entries n count W rands used selected).2 = true) :
    (selectLoop entries n count W rands used selected).1.length = count := by
  induction rands generalizing used selected with
  | nil =>
    rw [selectLoop] at h ⊢
    by_cases hg : count ≤ selected.length ∨ n ≤ used.length
    · rw [if_pos hg]
      simp only
      omega
    · rw [if_neg hg] at h
      simp at h
  | cons r rs ih =>
    rw [selectLoop] at h ⊢
    by_cases hg : count ≤ selected.length ∨ n ≤ used.length
    · rw [if_pos hg]
      simp only
      omega
    · rw [if_neg hg] at h ⊢
      push_neg at hg
      cases hsp : scanPick used (r * W) entries with
      | none =>
        simp only [hsp] at h ⊢
        exact ih used selected hinv hsel h
      | some e =>
        simp only [hsp] at h ⊢
        refine ih (e.1 :: used) (selected ++ [e.2.1]) ?_ ?_ h
        · simp [hinv]
        · simp
          omega

/-- C7: `weightedSelect` returns distinct cards drawn from the pool; with
`count ≥ pool.length` it returns a permutation of the entire pool, and with
`count < pool.length` it returns exactly `count` cards whenever its loop
ran to completion (the modelled draw stream did not run out). -/
theorem weightedSelect_selection (allStats : String → Option CardStats)
    (now : ℚ) (shuffleLe : Flashcard → Flashcard → Bool)
    (pool : List Flashcard) (count : ℕ) (rands : List ℚ)
    (hnd : pool.Nodup) :
    (∀ c ∈ (weightedSelect allStats now shuffleLe pool count rands).1,
        c ∈ pool) ∧
    (weightedSelect allStats now shuffleLe pool count rands).1.Nodup ∧
    (pool.length ≤ count →
      (weightedSelect allStats now shuffleLe pool count rands).1.Perm pool) ∧
    (count < pool.length →
      (weightedSelect allStats now shuffleLe pool count rands).2 = true →
      (weightedSelect allStats now shuffleLe pool count rands).1.length
        = count) := by
  by_cases h0 : pool.length = 0
  · have hpool : pool = [] := List.length_eq_zero.mp h0
    subst hpool
    simp [weightedSelect]
  · by_cases hc : pool.length ≤ count
    · have hperm := List.mergeSort_perm pool shuffleLe
      refine ⟨?_, ?_, ?_, ?_⟩
      · intro c hcm
        rw [weightedSelect] at hcm
        simp only [h0, hc, if_false, if_true] at hcm
        exact hperm.subset hcm
      · rw [weightedSelect]
        simp only [h0, hc, if_false, if_true]
        exact hperm.nodup_iff.mpr hnd
      · intro _
        rw [weightedSelect]
        simp only [h0, hc, if_false, if_true]
        exact hperm
      · intro hlt
        omega
    · -- selection loop branch
      have hmap : (((pool.zip (pool.map fun c =>
          cardWeight (statsOrDefault allStats c.id now) now)).enum).map
            (fun e => e.1)) = List.range pool.length := by
        rw [List.enum_map_fst]
        congr 1
        rw [List.length_zip, List.length_map, min_self]
      have hcards : (((pool.zip (pool.map fun c =>
          cardWeight (statsOrDefault allStats c.id now) now)).enum).map
            (fun e => e.2.1)) = pool := by
        have h1 : (((pool.zip (pool.map fun c =>
            cardWeight (statsOrDefault allStats c.id now) now)).enum).map
              (fun e => e.2.1)) =
            ((pool.zip (pool.map fun c =>
              cardWeight (statsOrDefault allStats c.id now) now)).enum.map
                Prod.snd).map Prod.fst := by
          rw [List.map_map]
          rfl
        rw [h1, List.enum_map_snd, List.map_fst_zip]
        rw [List.length_map]
      have heq := selectLoop_eq_amendedLoop
        ((pool.zip (pool.map fun c =>
          cardWeight (statsOrDefault allStats c.id now) now)).enum)
        pool.length count
        ((pool.map fun c =>
          cardWeight (statsOrDefault allStats c.id now) now).sum)
        rands [] [] hmap List.nodup_nil (by simp)
      have hfil : (fun (e : SelEntry) => decide (e.1 ∉ ([] : List ℕ))) =
          fun _ => true := by
        funext e
        simp
      rw [hfil, List.filter_true] at heq
      simp only [List.length_nil, Nat.sub_zero, List.nil_append] at heq
      have hw1 : (weightedSelect allStats now shuffleLe pool count rands).1 =
          amendedSelectLoop
            ((pool.map fun c =>
              cardWeight (statsOrDefault allStats c.id now) now).sum)
            rands
            ((pool.zip (pool.map fun c =>
              cardWeight (statsOrDefault allStats c.id now) now)).enum)
            count := by
        rw [weightedSelect]
        simp only [h0, hc, if_false]
        exact heq
      refine ⟨?_, ?_, ?_, ?_⟩
      · intro c hcm
        rw [hw1] at hcm
        have := amendedSelectLoop_subset _ _ _ _ c hcm
        rwa [hcards] at this
      · rw [hw1]
        apply amendedSelectLoop_nodup
        rw [hcards]
        exact hnd
      · intro hle
        omega
      · intro _ hdone
        rw [weightedSelect] at hdone ⊢
        simp only [h0, hc, if_false] at hdone ⊢
        exact selectLoop_complete_length _ _ _ _ _ _ _ rfl (by simp)
          (by omega) hdone

/-- C7 witness: the selection theorem evaluated on a concrete 3-card pool
with `count = 2` and draws `[5/6, 1/2]`, where the loop completes and picks
2 distinct cards. -/
theorem weightedSelect_selection_witness :
    ([cardA, cardB, cardC] : List Flashcard).Nodup ∧
    (weightedSelect (fun _ => none) 0 (fun _ _ => true)
        [cardA, cardB, cardC] 2 [5/6, 1/2]).1.Nodup ∧
    (weightedSelect (fun _ => none) 0 (fun _ _ => true)
        [cardA, cardB, cardC] 2 [5/6, 1/2]).1.length = 2 := by
  have hnd : ([cardA, cardB, cardC] : List Flashcard).Nodup := by
    simp [cardA, cardB, cardC]
  have h := weightedSelect_selection (fun _ => none) 0 (fun _ _ => true)
    [cardA, cardB, cardC] 2 [5/6, 1/2] hnd
  refine ⟨hnd, h.2.1, h.2.2.2 (by norm_num) ?_⟩
  norm_num [weightedSelect, selectLoop, scanPick, cardWeight, statsOrDefault,
    defaultStats, DEFAULT_EASE, cardA, cardB, cardC, List.enum, List.enumFrom,
    List.zip, List.zipWith]

/-- C3 counterexample: with three identically weighted cards and draws
`[5/6, 1/2]`, the code (which scales every draw by the fixed initial total)
picks cards c then b, while the spec's procedure (which scales draws by the
shrinking remaining total) picks c then a. -/
theorem weightedSelect_draw_total_differs :
    (weightedSelect (fun _ => none) 0 (fun _ _ => true) [cardA, cardB, cardC] 2
        [5/6, 1/2]).1 ≠
    specWeightedSelect (fun _ => none) 0 (fun _ _ => true) [cardA, cardB, cardC] 2
        [5/6, 1/2] := by
  norm_num [weightedSelect, specWeightedSelect, selectLoop, specSelectLoop,
    scanPick, walkRemove, cardWeight, statsOrDefault, defaultStats,
    DEFAULT_EASE, cardA, cardB, cardC, List.enum, List.enumFrom, List.zip,
    List.zipWith]
  simp [cardA, cardB, cardC]

/-- Helper: the two-level JS comparison "due difference, else ease
difference" is nonpositive exactly for the lexicographic order. -/
lemma ifCmp_le_iff (x y e f : ℚ) :
    (if x ≠ y then x - y else e - f) ≤ 0 ↔ (x < y ∨ (x = y ∧ e ≤ f)) := by
  by_cases h : x = y
  · subst h
    rw [if_neg (by simp : ¬ (x ≠ x))]
    constructor
    · intro hle
      exact Or.inr ⟨rfl, by linarith⟩
    · rintro (hlt | ⟨-, hef⟩)
      · exact absurd rfl (ne_of_lt hlt)
      · linarith
  · rw [if_pos h]
    constructor
    · intro hle
      exact Or.inl (lt_of_le_of_ne (by linarith) h)
    · rintro (hlt | ⟨heq, -⟩)
      · linarith
      · exact absurd heq h

/-- Helper: the `sortForUnitMode` comparator is total. -/
lemma unitCmp_total (allStats : String → Option CardStats) (now : ℚ)
    (a b : Flashcard) :
    unitCmp allStats now a b ≤ 0 ∨ unitCmp allStats now b a ≤ 0 := by
  unfold unitCmp
  cases ha : allStats a.id with
  | none =>
    cases hb : allStats b.id with
    | none => simp
    | some sb => simp
  | some sa =>
    cases hb : allStats b.id with
    | none => simp
    | some sb =>
      rw [ifCmp_le_iff, ifCmp_le_iff]
      rcases lt_trichotomy (effDue sa now) (effDue sb now) with h | h | h
      · exact Or.inl (Or.inl h)
      · rcases le_total sa.ease sb.ease with he | he
        · exact Or.inl (Or.inr ⟨h, he⟩)
        · exact Or.inr (Or.inr ⟨h.symm, he⟩)
      · exact Or.inr (Or.inl h)

/-- Helper: the `sortForUnitMode` comparator is transitive. -/
lemma unitCmp_trans (allStats : String → Option CardStats) (now : ℚ)
    (a b c : Flashcard) (hab : unitCmp allStats now a b ≤ 0)
    (hbc : unitCmp allStats now b c ≤ 0) :
    unitCmp allStats now a c ≤ 0 := by
  unfold unitCmp at hab hbc ⊢
  cases ha : allStats a.id with
  | none =>
    cases hb : allStats b.id with
    | none =>
      cases hc : allStats c.id with
      | none => simp
      | some sc =>
        rw [hb, hc] at hbc
        norm_num at hbc
    | some sb =>
      rw [ha, hb] at hab
      norm_num at hab
  | some sa =>
    cases hc : allStats c.id with
    | none => simp
    | some sc =>
      cases hb : allStats b.id with
      | none =>
        rw [hb, hc] at hbc
        norm_num at hbc
      | some sb =>
        rw [ha, hb] at hab
        rw [hb, hc] at hbc
        rw [ifCmp_le_iff] at hab hbc ⊢
        rcases hab with h1 | ⟨h1, he1⟩ <;> rcases hbc with h2 | ⟨h2, he2⟩
        · exact Or.inl (by linarith)
        · exact Or.inl (by linarith)
        · exact Or.inl (by linarith)
        · exact Or.inr ⟨by linarith, by linarith⟩

/-- C8: `sortForUnitMode` returns a reordering of its input in which every
card with no stored stats comes after every card with stored stats, and
cards with stored stats are ordered by effective due ascending with ties
broken by ease ascending. -/
theorem sortForUnitMode_spec (allStats : String → Option CardStats) (now : ℚ)
    (cards : List Flashcard) :
    (sortForUnitMode allStats now cards).Perm cards ∧
    List.Pairwise (fun a b =>
      (allStats b.id ≠ none → allStats a.id ≠ none) ∧
      (∀ sa sb, allStats a.id = some sa → allStats b.id = some sb →
        effDue sa now < effDue sb now ∨
          (effDue sa now = effDue sb now ∧ sa.ease ≤ sb.ease)))
      (sortForUnitMode allStats now cards) := by
  constructor
  · exact List.mergeSort_perm cards _
  · have htrans : ∀ x y z : Flashcard,
        (fun a b => decide (unitCmp allStats now a b ≤ 0)) x y = true →
        (fun a b => decide (unitCmp allStats now a b ≤ 0)) y z = true →
        (fun a b => decide (unitCmp allStats now a b ≤ 0)) x z = true := by
      intro x y z hxy hyz
      simp only [decide_eq_true_eq] at hxy hyz ⊢
      exact unitCmp_trans allStats now x y z hxy hyz
    have htotal : ∀ x y : Flashcard,
        ((fun a b => decide (unitCmp allStats now a b ≤ 0)) x y ||
          (fun a b => decide (unitCmp allStats now a b ≤ 0)) y x) = true := by
      intro x y
      simp only [Bool.or_eq_true, decide_eq_true_eq]
      exact unitCmp_total allStats now x y
    have hs := List.sorted_mergeSort htrans htotal cards
    refine List.Pairwise.imp ?_ hs
    intro a b hle
    simp only [decide_eq_true_eq] at hle
    constructor
    · intro hb ha
      rw [unitCmp] at hle
      cases hcb : allStats b.id with
      | none => exact hb hcb
      | some sb =>
        rw [ha, hcb] at hle
        norm_num at hle
    · intro sa sb ha hb
      rw [unitCmp, ha, hb, ifCmp_le_iff] at hle
      exact hle

/-- Helper: `k ≤ round(c/t·100)` unfolded into an integer inequality. -/
lemma floor_pct_le_iff (c t : ℕ) (k : ℤ) (ht : 0 < t) :
    k ≤ mathRound ((c : ℚ) / t * 100) ↔ (2*k - 1) * (t : ℤ) ≤ 200 * c := by
  rw [mathRound, Int.le_floor]
  have ht' : (0 : ℚ) < t := by exact_mod_cast ht
  rw [div_mul_eq_mul_div, ← sub_le_iff_le_add, le_div_iff₀ ht']
  constructor
  · intro h
    have h2 : ((2*k - 1 : ℤ) : ℚ) * (t : ℚ) ≤ 200 * (c : ℚ) := by
      push_cast
      linarith
    exact_mod_cast h2
  · intro h
    have h2 : ((2*k - 1 : ℤ) : ℚ) * (t : ℚ) ≤ 200 * (c : ℚ) := by
      exact_mod_cast h
    push_cast at h2
    linarith

/-- Helper: comparison of hundredths reduces to the integer numerators. -/
lemma div100_le_iff (p : ℕ) (z : ℤ) :
    (p : ℚ) / 100 ≤ (z : ℚ) / 100 ↔ (p : ℤ) ≤ z := by
  rw [div_le_div_iff₀ (by norm_num) (by norm_num)]
  constructor
  · intro h
    have : (p : ℚ) ≤ (z : ℚ) := by linarith
    exact_mod_cast this
  · intro h
    have : (p : ℚ) ≤ (z : ℚ) := by exact_mod_cast h
    linarith

/-- Helper: a percentage threshold against a fraction of naturals reduces
to an integer inequality. -/
lemma frac_ge_iff (c t p : ℕ) (ht : 0 < t) :
    (p : ℚ) / 100 ≤ (c : ℚ) / t ↔ (p * t : ℤ) ≤ 100 * c := by
  have ht' : (0 : ℚ) < t := by exact_mod_cast ht
  rw [div_le_div_iff₀ (by norm_num) ht']
  constructor
  · intro h
    have h2 : ((p * t : ℤ) : ℚ) ≤ 100 * (c : ℚ) := by push_cast; linarith
    exact_mod_cast h2
  · intro h
    have h2 : ((p * t : ℤ) : ℚ) ≤ 100 * (c : ℚ) := by exact_mod_cast h
    push_cast at h2
    linarith

/-- Helper: the `pct` field of `sessionSummary`, written via `correct`. -/
lemma sessionSummary_pct_def (results : List DeckResult) :
    (sessionSummary results).pct =
      if 0 < results.length then
        mathRound (((sessionSummary results).correct : ℚ)
          / results.length * 100)
      else 0 := by
  simp [sessionSummary]

/-- C2: for every tier of the BLINDS ladder and every result list that fits
in the tier, the code's pass test (`round(100·correct/total)/100 ≥
threshold`) holds exactly when the raw fraction `correct/total` reaches the
threshold, boundary inclusive; "correct" counts ratings 3 and 4. -/
theorem blindPassed_iff_fraction (blind : BlindConfig)
    (results : List DeckResult) (hb : blind ∈ BLINDS)
    (hlen : results.length ≤ blind.cardCount) :
    blindPassed results blind ↔
      ((results.filter (fun r => r.rating == 3 || r.rating == 4)).length : ℚ)
        / (results.length : ℚ) ≥ blind.threshold := by
  have hcor : (sessionSummary results).correct
      = (results.filter (fun r => r.rating == 3 || r.rating == 4)).length :=
    count_good_add_easy results
  have hct : (results.filter (fun r => r.rating == 3 || r.rating == 4)).length
      ≤ results.length := List.length_filter_le _ _
  rw [blindPassed, sessionSummary_pct_def, hcor]
  fin_cases hb
  · have hlen2 : results.length ≤ 10 := by simpa using hlen
    rw [ge_iff_le, ge_iff_le]
    dsimp only
    simp only [(by norm_num : (7/10:ℚ) = ((70:ℕ):ℚ)/100)]
    by_cases h0 : 0 < results.length
    · rw [if_pos h0]
      rw [div100_le_iff, floor_pct_le_iff _ _ _ h0, frac_ge_iff _ _ _ h0]
      omega
    · rw [if_neg h0]
      have ht0 : results.length = 0 := by omega
      have hc0 : (results.filter
          (fun r => r.rating == 3 || r.rating == 4)).length = 0 := by omega
      rw [ht0, hc0]
      norm_num
  · have hlen2 : results.length ≤ 20 := by simpa using hlen
    rw [ge_iff_le, ge_iff_le]
    dsimp only
    simp only [(by norm_num : (3/4:ℚ) = ((75:ℕ):ℚ)/100)]
    by_cases h0 : 0 < results.length
    · rw [if_pos h0]
      rw [div100_le_iff, floor_pct_le_iff _ _ _ h0, frac_ge_iff _ _ _ h0]
      omega
    · rw [if_neg h0]
      have ht0 : results.length = 0 := by omega
      have hc0 : (results.filter
          (fun r => r.rating == 3 || r.rating == 4)).length = 0 := by omega
      rw [ht0, hc0]
      norm_num
  · have hlen2 : results.length ≤ 30 := by simpa using hlen
    rw [ge_iff_le, ge_iff_le]
    dsimp only
    simp only [(by norm_num : (4/5:ℚ) = ((80:ℕ):ℚ)/100)]
    by_cases h0 : 0 < results.length
    · rw [if_pos h0]
      rw [div100_le_iff, floor_pct_le_iff _ _ _ h0, frac_ge_iff _ _ _ h0]
      omega
    · rw [if_neg h0]
      have ht0 : results.length = 0 := by omega
      have hc0 : (results.filter
          (fun r => r.rating == 3 || r.rating == 4)).length = 0 := by omega
      rw [ht0, hc0]
      norm_num

/-- C4: after a blind completes, the session advances to the next tier's
blind-intro — with the next tier's card set drawn by `weightedSelect` over
the full pool — exactly when the tier was passed and was not the last tier;
when the tier was failed or was the last tier, the session goes to
round-over. -/
theorem handleBlindComplete_advances_iff (allStats : String → Option CardStats)
    (now : ℚ) (shuffleLe : Flashcard → Flashcard → Bool) (rands : List ℚ)
    (st : PlayState) (results : List DeckResult)
    (_hidx : st.blindIndex < BLINDS.length) :
    (((handleBlindComplete allStats now shuffleLe rands st results).phase
          = Phase.blindIntro ∧
       (handleBlindComplete allStats now shuffleLe rands st results).blindIndex
          = st.blindIndex + 1 ∧
       (handleBlindComplete allStats now shuffleLe rands st results).blindCards
          = (weightedSelect allStats now shuffleLe st.allCards
              (BLINDS.getD (st.blindIndex + 1) junkBlind).cardCount rands).1) ↔
      (blindPassed results (BLINDS.getD st.blindIndex junkBlind) ∧
        st.blindIndex < BLINDS.length - 1)) ∧
    ((¬ blindPassed results (BLINDS.getD st.blindIndex junkBlind) ∨
        st.blindIndex = BLINDS.length - 1) →
      (handleBlindComplete allStats now shuffleLe rands st results).phase
        = Phase.roundOver) := by
  simp only [handleBlindComplete]
  split_ifs with hcond
  · refine ⟨⟨?_, ?_⟩, ?_⟩
    · intro h
      have hph := h.1
      simp at hph
    · rintro ⟨hp2, hlt⟩
      rcases hcond with hc | hc
      · exact absurd hp2 hc
      · omega
    · intro _
      rfl
  · push_neg at hcond
    refine ⟨⟨?_, ?_⟩, ?_⟩
    · intro _
      exact ⟨hcond.1, by omega⟩
    · intro _
      exact ⟨rfl, rfl, rfl⟩
    · intro h
      rcases h with h | h
      · exact absurd hcond.1 h
      · omega

/-- C2 witness: the pass rule evaluated for the Small Blind on a
single-card result list rated 3. -/
theorem blindPassed_iff_fraction_witness :
    ([(⟨"x", 3⟩ : DeckResult)].length ≤
      ({ name := "small", label := "Small Blind", cardCount := 10
       , threshold := 7/10, pointMultiplier := 1 } : BlindConfig).cardCount) ∧
    (blindPassed [(⟨"x", 3⟩ : DeckResult)]
        { name := "small", label := "Small Blind", cardCount := 10
        , threshold := 7/10, pointMultiplier := 1 } ↔
      ((([(⟨"x", 3⟩ : DeckResult)].filter
            (fun r => r.rating == 3 || r.rating == 4)).length : ℚ)
          / (([(⟨"x", 3⟩ : DeckResult)].length : ℚ)) ≥
        ({ name := "small", label := "Small Blind", cardCount := 10
         , threshold := 7/10, pointMultiplier := 1 } : BlindConfig).threshold)) := by
  refine ⟨by norm_num, ?_⟩
  exact blindPassed_iff_fraction _ _ (by simp [BLINDS]) (by norm_num)

/-- C4 witness: a failed tier 0 (single result rated 1) sends the session
to round-over. -/
theorem handleBlindComplete_advances_iff_witness :
    ((⟨Phase.playing, 0, 0, [], [cardA], [], false⟩ : PlayState).blindIndex
      < BLINDS.length) ∧
    (handleBlindComplete (fun _ => none) 0 (fun _ _ => true) []
        ⟨Phase.playing, 0, 0, [], [cardA], [], false⟩ [⟨"x", 1⟩]).phase
      = Phase.roundOver := by
  refine ⟨by simp [BLINDS], ?_⟩
  have h := handleBlindComplete_advances_iff (fun _ => none) 0
    (fun _ _ => true) [] ⟨Phase.playing, 0, 0, [], [cardA], [], false⟩
    [⟨"x", 1⟩] (by simp [BLINDS])
  apply h.2
  left
  norm_num [blindPassed, sessionSummary, BLINDS, junkBlind, mathRound]
